import Mathlib

/-!
# Verification of the qsym symbolic interpreter core

A shallow embedding of the value factory (`src/value.rs`), symbolic memory
(`src/memory.rs`), state (`src/state.rs`) and interpreter (`src/interp.rs`)
of the qsym QBE-IL symbolic interpreter, together with proofs and refutations
of the specified properties.

Symbolic z3 bit-vectors are embedded by their denotation: a bit-vector is a
width together with a natural-number value; fresh unconstrained constants are
universally quantified (the functions that create them take the chosen value
as an explicit parameter).  The symbolic memory array is embedded as a total
map from 64-bit address values to byte values.
-/

namespace Qsym

/-- Denotation of a z3 bit-vector: a width in bits and a value.
Well-formed values satisfy `val < 2 ^ width` (`BV.wf`). -/
structure BV where
  width : Nat
  val : Nat
deriving DecidableEq, Repr

/-- Well-formedness: the value fits in the width. -/
def BV.wf (v : BV) : Prop := v.val < 2 ^ v.width

instance (v : BV) : Decidable v.wf := by unfold BV.wf; infer_instance

/-- Embeds `z3::ast::BV::from_u64` / `new_const` denotation at a given value:
the value is reduced to the width. -/
def mkBV (w n : Nat) : BV := ⟨w, n % 2 ^ w⟩

/-- z3 `extract(hi, lo)` : bits `hi..lo`, width `hi + 1 - lo`. -/
def BV.extract (v : BV) (hi lo : Nat) : BV :=
  ⟨hi + 1 - lo, v.val / 2 ^ lo % 2 ^ (hi + 1 - lo)⟩

/-- z3 `concat` : `a` becomes the most-significant part. -/
def BV.concat (a b : BV) : BV :=
  ⟨a.width + b.width, a.val * 2 ^ b.width + b.val⟩

/-- z3 `bvadd` (operands share a width). -/
def BV.bvadd (a b : BV) : BV := ⟨a.width, (a.val + b.val) % 2 ^ a.width⟩

/-- z3 `bvsub` : two's complement subtraction. -/
def BV.bvsub (a b : BV) : BV :=
  ⟨a.width, (a.val + (2 ^ a.width - b.val % 2 ^ a.width)) % 2 ^ a.width⟩

/-- z3 `bvurem` : unsigned remainder, `x urem 0 = x`. -/
def BV.bvurem (a b : BV) : BV :=
  ⟨a.width, if b.val = 0 then a.val else a.val % b.val⟩

/-- Signed (two's complement) reading of a bit-vector. -/
def BV.toInt (v : BV) : Int :=
  if v.val < 2 ^ (v.width - 1) then (v.val : Int) else (v.val : Int) - 2 ^ v.width

/-! ## Value factory (`src/value.rs`) -/

def BYTE_SIZE : Nat := 8
def HALF_SIZE : Nat := 16
def WORD_SIZE : Nat := 32
def LONG_SIZE : Nat := 64

inductive BaseType where
  | word | long | single | double
deriving DecidableEq, Repr

inductive SubWordType where
  | signedByte | unsignedByte | signedHalf | unsignedHalf
deriving DecidableEq, Repr

/-- Embeds `ValueFactory::basety_to_size`; `none` models the floating-point panic. -/
def basety_to_size : BaseType → Option Nat
  | .word => some WORD_SIZE
  | .long => some LONG_SIZE
  | .single => none
  | .double => none

/-- Embeds `ValueFactory::subwty_to_size`. -/
def subwty_to_size : SubWordType → Nat
  | .signedByte => BYTE_SIZE
  | .unsignedByte => BYTE_SIZE
  | .signedHalf => HALF_SIZE
  | .unsignedHalf => HALF_SIZE

/-- Embeds `ValueFactory::from_base_u64`; `none` models the floating-point panic. -/
def from_base_u64 (ty : BaseType) (v : Nat) : Option BV :=
  (basety_to_size ty).map (fun w => mkBV w v)

/-- Embeds `ValueFactory::make_byte`. -/
def make_byte (v : Nat) : BV := mkBV BYTE_SIZE v

/-- Embeds `ValueFactory::make_word`. -/
def make_word (v : Nat) : BV := mkBV WORD_SIZE v

/-- Embeds `ValueFactory::make_long`. -/
def make_long (v : Nat) : BV := mkBV LONG_SIZE v

/-- Embeds `ValueFactory::extend_subword`.  The source asserts
`val.get_size() == size` and `val.get_size() < 32` and computes
`val.concat(uncons)` where `uncons` is the fresh unconstrained constant
`undef-msbsw` of width `32 - size`; the value chosen for that fresh constant
is taken here as the explicit parameter `freshVal`. -/
def extend_subword (ty : SubWordType) (val : BV) (freshVal : Nat) : BV :=
  let size := subwty_to_size ty
  let rem := WORD_SIZE - size
  let uncons : BV := mkBV rem freshVal
  val.concat uncons

/-! ## Memory (`src/memory.rs`) -/

/-- Denotation of the symbolic memory array: 64-bit address value to byte. -/
def Memory := Nat → Nat

/-- Embeds `Memory::store_byte` (z3 array `store`). -/
def store_byte (m : Memory) (addr : BV) (value : BV) : Memory :=
  fun a => if a = addr.val then value.val else m a

/-- Embeds `Memory::load_byte` (z3 array `select` on the byte-valued array). -/
def load_byte (m : Memory) (addr : BV) : BV := ⟨8, m addr.val⟩

/-- Embeds `Memory::store_bitvector`: bytes are extracted for `n = amount, ..., 1`
(`(1..=amount).rev()`) as `value.extract(n*8 - 1, (n-1)*8)` and the byte with
enumeration index `j` is stored at `addr + j`. -/
def store_bitvector (m : Memory) (addr : BV) (value : BV) : Memory :=
  let amount := value.width / 8
  (List.range amount).foldl
    (fun mem j =>
      store_byte mem (addr.bvadd (mkBV 64 j))
        (value.extract ((amount - j) * 8 - 1) ((amount - j - 1) * 8)))
    m

/-- Embeds `reduce` on an iterator of bit-vectors with `concat`: `none` on an empty
sequence (the source calls `.unwrap()` on this, panicking for `amount = 0`). -/
def reduce_concat : List BV → Option BV
  | [] => none
  | b :: bs => some (bs.foldl BV.concat b)

/-- Embeds `Memory::load_bitvector`: loads `amount` bytes at `addr, addr+1, ...` and
concatenates them in address order, most-significant first. -/
def load_bitvector (m : Memory) (addr : BV) (amount : Nat) : Option BV :=
  reduce_concat ((List.range amount).map (fun n => load_byte m (addr.bvadd (mkBV 64 n))))

/-- Embeds `Memory::store_string`: each character code is stored as one byte and the
cursor advances by one; returns the final cursor.  Characters are modelled by
their `u8` codes (the source's `try_into().unwrap()` restricts to codes < 256,
which the theorems assume). -/
def store_string (m : Memory) (addr : BV) (s : List Nat) : Memory × BV :=
  s.foldl
    (fun (p : Memory × BV) c =>
      (store_byte p.1 p.2 ⟨8, c⟩, p.2.bvadd (mkBV 64 1)))
    (m, addr)

/-- Embeds `Memory::load_word` = `load_bitvector(addr, 4)`. -/
def load_word (m : Memory) (addr : BV) : Option BV := load_bitvector m addr 4

/-- The all-zero concrete memory, used to instantiate theorems. -/
def zeroMem : Memory := fun _ => 0

/-- The all-ones concrete memory, used to instantiate theorems. -/
def oneMem : Memory := fun _ => 1

/-! ## State (`src/state.rs`): the `ZeroFill` arm of `insert_data_object` -/

/-- The `DataObj::ZeroFill(n)` arm of `State::insert_data_object`: the source
runs `for i in 0..n { cur_addr = cur_addr.bvadd(make_long(i)); store_byte(cur_addr, 0) }`
and returns the final `cur_addr`. -/
def insert_data_object_zerofill (m : Memory) (addr : BV) (n : Nat) : Memory × BV :=
  (List.range n).foldl
    (fun (p : Memory × BV) i =>
      let cur := p.2.bvadd (make_long i)
      (store_byte p.1 cur (make_byte 0), cur))
    (m, addr)

/-! ## State (`src/state.rs`): stack pointer and frame stack -/

/-- A basic block; only the label is relevant to the modelled operations. -/
structure Block where
  label : String
deriving DecidableEq, Repr

/-- A function definition; only the name and body are relevant to the
modelled operations. -/
structure FuncDef where
  name : String
  body : List Block
deriving DecidableEq, Repr

/-- Embeds `FuncState`: label map, local bindings and the saved stack pointer.
The hash maps are embedded as association lists (latest binding first). -/
structure FuncState where
  labels : List (String × Block)
  locals : List (String × BV)
  stkptr : BV
deriving DecidableEq, Repr

/-- The parts of `State` the modelled operations touch: the memory, the
stack pointer and the frame stack (top of `stck` first). -/
structure State where
  mem : Memory
  stkptr : BV
  stck : List FuncState

/-- Embeds `State::stack_alloc`: `aligned = (stkptr - (stkptr urem align)) + align`,
the stack pointer becomes `aligned + size`, and `aligned` is returned. -/
def stack_alloc (st : State) (align size : Nat) : State × BV :=
  let aligned := (st.stkptr.bvsub (st.stkptr.bvurem (make_long align))).bvadd (make_long align)
  ({ st with stkptr := aligned.bvadd (make_long size) }, aligned)

/-- Embeds `State::push_func`: a fresh frame with the label map of `func.body`,
no locals, and the current stack pointer saved. -/
def push_func (st : State) (func : FuncDef) : State :=
  { st with
    stck := { labels := func.body.map (fun b => (b.label, b))
              locals := []
              stkptr := st.stkptr } :: st.stck }

/-- Embeds `State::add_local`: insert into the top frame's binding map. -/
def add_local (st : State) (name : String) (value : BV) : State :=
  match st.stck with
  | [] => st
  | f :: rest => { st with stck := { f with locals := (name, value) :: f.locals } :: rest }

/-- Embeds `State::get_local`: look up in the top frame's binding map. -/
def get_local (st : State) (name : String) : Option BV :=
  match st.stck with
  | [] => none
  | f :: _ => (f.locals.find? (fun p => p.1 = name)).map Prod.snd

/-- Embeds `State::get_block`: look up in the top frame's label map. -/
def get_block (st : State) (name : String) : Option Block :=
  match st.stck with
  | [] => none
  | f :: _ => (f.labels.find? (fun p => p.1 = name)).map Prod.snd

/-- Embeds `State::pop_func`: pop the top frame and restore its saved stack pointer. -/
def pop_func (st : State) : State :=
  match st.stck with
  | [] => st
  | f :: rest => { st with stkptr := f.stkptr, stck := rest }

/-- The operations of a frame's lifetime between `push_func` and `pop_func`:
allocations, local binding and the two (state-preserving) queries. -/
inductive FrameOp where
  | alloc (align size : Nat)
  | bind (name : String) (v : BV)
  | queryLocal (name : String)
  | queryBlock (label : String)

/-- Effect of one `FrameOp` on the state (queries leave it unchanged). -/
def applyFrameOp (st : State) : FrameOp → State
  | .alloc a s => (stack_alloc st a s).1
  | .bind n v => add_local st n v
  | .queryLocal _ => st
  | .queryBlock _ => st

/-! ## Interpreter (`src/interp.rs`) -/

/-- Embeds `Error` (`src/error.rs`). -/
inductive Error where
  | haltExecution
  | unknownLabel (s : String)
  | unknownFunction (s : String)
  | unknownVariable (s : String)
  | invalidSubtyping
  | forkFailed
  | waitpidFailed
  | invalidType
  | unsupportedStringType
deriving DecidableEq, Repr

/-- Embeds `CmpOp` (from the IL tree). -/
inductive CmpOp where
  | eq | ne | sle | slt | sge | sgt | ule | ult | uge | ugt
deriving DecidableEq, Repr

/-- The condition built by `Interp::perform_compare`.  The source maps
`Sge` to `bvsgt` (the same operation as `Sgt`). -/
def compare_cond (op : CmpOp) (bv1 bv2 : BV) : Bool :=
  match op with
  | .eq => decide (bv1 = bv2)
  | .ne => !decide (bv1 = bv2)
  | .sle => decide (bv1.toInt ≤ bv2.toInt)
  | .slt => decide (bv1.toInt < bv2.toInt)
  | .sge => decide (bv1.toInt > bv2.toInt)
  | .sgt => decide (bv1.toInt > bv2.toInt)
  | .ule => decide (bv1.val ≤ bv2.val)
  | .ult => decide (bv1.val < bv2.val)
  | .uge => decide (bv1.val ≥ bv2.val)
  | .ugt => decide (bv1.val > bv2.val)

/-- Embeds `Interp::perform_compare`: `ite(cond, 1, 0)` at `dest_ty` width
(`none` models the floating-point panic inside `from_base_u64`). -/
def perform_compare (dest_ty : BaseType) (op : CmpOp) (bv1 bv2 : BV) : Option BV :=
  match from_base_u64 dest_ty 1, from_base_u64 dest_ty 0 with
  | some t, some f => some (if compare_cond op bv1 bv2 then t else f)
  | _, _ => none

/-- IL operand values (`Value` in the IL tree).  Floating-point and
thread-local constants are fatal in the source and are modelled by the
`fatal` resolution result. -/
inductive Value where
  | localVar (name : String)
  | constNumber (n : Int)
  | constGlobal (s : String)
  | constFatal
deriving DecidableEq, Repr

/-- A 64-bit two's-complement literal, as `ValueFactory::from_base_i64`
with `BaseType::Long` builds for `Const::Number`. -/
def from_i64_long (n : Int) : BV := ⟨64, (n % (2 ^ 64 : Int)).toNat⟩

/-- The lookup part of `Interp::get_value` (the `match value` block plus
`get_dyn_const`/`get_const`): locals through `State::get_local`, globals
through `State::get_ptr`, numbers as 64-bit literals.  `none` models the
panics for floating-point and thread-local constants. -/
def resolve_value (locals : String → Option BV) (ptrs : String → Option BV) :
    Value → Option (Except Error BV)
  | .localVar var =>
    some (match locals var with
          | some bv => .ok bv
          | none => .error (.unknownVariable var))
  | .constNumber n => some (.ok (from_i64_long n))
  | .constGlobal s =>
    some (match ptrs s with
          | some bv => .ok bv
          | none => .error (.unknownVariable s))
  | .constFatal => none

/-- The sub-typing step of `Interp::get_value`, applied after the lookup:
for destination base type Word, a 64-bit value is cut to its low 32 bits, a
value that is neither 64 nor 32 bits wide is `InvalidSubtyping`; everything
else passes unchanged. -/
def subtype_value (dest_ty : Option BaseType) (bv : BV) : Except Error BV :=
  match dest_ty with
  | some BaseType.word =>
    if bv.width = LONG_SIZE then .ok (bv.extract 31 0)
    else if bv.width ≠ WORD_SIZE then .error .invalidSubtyping
    else .ok bv
  | _ => .ok bv

/-- Embeds `Interp::get_value`: resolve the operand, then apply sub-typing. -/
def get_value (locals : String → Option BV) (ptrs : String → Option BV)
    (dest_ty : Option BaseType) (v : Value) : Option (Except Error BV) :=
  (resolve_value locals ptrs v).map (fun r => r.bind (subtype_value dest_ty))

/-- Denotation of the solver Booleans `exec_jump` builds: the equation
`bv._eq(...)` and its negation `.not()`. -/
inductive SBool where
  | eqBV (a b : BV)
  | notB (b : SBool)
deriving DecidableEq, Repr

/-- A `Path`: an optional guard and the block to explore. -/
structure Path where
  guard : Option SBool
  block : Block
deriving DecidableEq, Repr

/-- The part of `FuncReturn` produced by `Jnz`. -/
inductive FuncReturn where
  | jump (p : Path)
  | condJump (p1 p2 : Path)
deriving DecidableEq, Repr

/-- Embeds `Path::feasible` given a solver oracle for `check_assumptions`:
a `none` guard is trivially feasible without consulting the solver. -/
def path_feasible (feas : SBool → Bool) (p : Path) : Bool :=
  match p.guard with
  | none => true
  | some g => feas g

/-- The `Jnz` arm of `Interp::exec_jump`, for a condition already resolved
(under Word sub-typing) to the bit-vector `bv` and with both target blocks
resolved.  `feas` is the solver oracle; the second component records the
guards submitted to the solver, in order (Rust `&&` short-circuits, so the
non-zero arm is only checked when the zero arm is feasible). -/
def exec_jump_jnz (feas : SBool → Bool) (bv : BV) (nzeroBlock zeroBlock : Block) :
    FuncReturn × List SBool :=
  let is_zero := SBool.eqBV bv (make_word 0)
  let nzero_path : Path := ⟨some (.notB is_zero), nzeroBlock⟩
  let zero_path : Path := ⟨some is_zero, zeroBlock⟩
  let zero_feasible := path_feasible feas zero_path
  if zero_feasible then
    if path_feasible feas nzero_path then
      (.condJump nzero_path zero_path, [is_zero, .notB is_zero])
    else
      (.jump zero_path, [is_zero, .notB is_zero])
  else
    (.jump nzero_path, [is_zero])

/-! ## Proof infrastructure and concrete instances -/

/-- The first `n` iterations of the store loop of `store_bitvector`, with the
byte count `k` of the full value made explicit. -/
def store_iter (m : Memory) (addr V : BV) (k n : Nat) : Memory :=
  (List.range n).foldl
    (fun mem j =>
      store_byte mem (addr.bvadd (mkBV 64 j))
        (V.extract ((k - j) * 8 - 1) ((k - j - 1) * 8)))
    m

/-- A concrete locals map used to instantiate theorems. -/
def wLocals : String → Option BV := fun _ => some ⟨64, 5⟩

/-- A concrete globals map used to instantiate theorems. -/
def wPtrs : String → Option BV := fun _ => none

/-- A concrete frame used to instantiate theorems. -/
def wFrame : FuncState := { labels := [], locals := [], stkptr := make_long 100 }

/-- A concrete state used to instantiate theorems. -/
def wState : State := { mem := zeroMem, stkptr := make_long 100, stck := [wFrame] }

/-! ## Theorems -/

/-- C1: refuted — `extend_subword` computes `val.concat(uncons)`, which puts
the argument `v` in the HIGH bits of the 32-bit result and the fresh
unconstrained constant in the LOW bits.  For the 8-bit value 1 and fresh
value 0 the result is `0x01000000`: its low 8 bits are 0, not 1, and `v`
appears in bits `[31:24]` instead, contradicting the claim (and the
function's own comment, which says the MOST significant bits are the
undefined ones). -/
theorem c1_extend_subword_lowbits_bug :
    extend_subword SubWordType.signedByte ⟨8, 1⟩ 0 = ⟨32, 16777216⟩ ∧
    (extend_subword SubWordType.signedByte ⟨8, 1⟩ 0).extract 7 0 ≠ ⟨8, 1⟩ ∧
    (extend_subword SubWordType.signedByte ⟨8, 1⟩ 0).extract 7 0 = ⟨8, 0⟩ ∧
    (extend_subword SubWordType.signedByte ⟨8, 1⟩ 0).extract 31 24 = ⟨8, 1⟩ := by
  decide

/-- C4: refuted — `perform_compare` maps `Sge` to `bvsgt` (the strict
comparison, the same operation as `Sgt`).  At `a = b = 0 : w32` the signed
greater-or-equal predicate holds, so the claim demands result 1, but the
code produces 0. -/
theorem c4_perform_compare_sge_bug :
    perform_compare BaseType.word CmpOp.sge (make_word 0) (make_word 0) =
      some (make_word 0) ∧
    compare_cond CmpOp.sge (make_word 0) (make_word 0) =
      compare_cond CmpOp.sgt (make_word 0) (make_word 0) ∧
    (make_word 0).toInt ≥ (make_word 0).toInt := by
  decide

/-- C5: refuted — the `ZeroFill(n)` loop advances the cursor by `i` (the loop
index) before each store, so it writes at offsets 0, 1, 3, 6, ... instead of
0, 1, ..., n-1, and returns the last written address instead of `A + n`.
For `n = 3` at `A = 0` over an all-ones memory, address 2 still holds 1
(never zeroed) while address 3 was zeroed; for `n = 2` the returned cursor
is `A + 1`, not `A + 2`. -/
theorem c5_zerofill_bug :
    (insert_data_object_zerofill oneMem (make_long 0) 3).1 2 = 1 ∧
    (insert_data_object_zerofill oneMem (make_long 0) 3).1 3 = 0 ∧
    (insert_data_object_zerofill oneMem (make_long 0) 2).2 = make_long 1 := by
  decide

/-- Folding `concat` over a list of bytes adds 8 bits of width per byte. -/
theorem foldl_concat_width (l : List BV) (b : BV) (h : ∀ x ∈ l, x.width = 8) :
    (l.foldl BV.concat b).width = b.width + 8 * l.length := by
  induction l generalizing b with
  | nil => simp
  | cons x xs ih =>
    have hx : x.width = 8 := h x (List.mem_cons_self x xs)
    simp only [List.foldl_cons, List.length_cons]
    rw [ih (b.concat x) (fun y hy => h y (List.mem_cons_of_mem x hy))]
    simp [BV.concat, hx]
    ring

/-- C10: `load_bitvector` is total only for `amount ≥ 1`: it then yields a
bit-vector of width `8·amount`, while `amount = 0` hits the `unwrap` of the
empty `reduce` (modelled by `none`). -/
theorem c10_load_bitvector_amount (m : Memory) (addr : BV) (k : Nat) :
    (1 ≤ k → ∃ bv, load_bitvector m addr k = some bv ∧ bv.width = 8 * k) ∧
    load_bitvector m addr 0 = none := by
  constructor
  · intro hk
    obtain ⟨j, rfl⟩ : ∃ j, k = j + 1 := ⟨k - 1, by omega⟩
    rw [load_bitvector, List.range_succ_eq_map]
    simp only [List.map_cons, List.map_map, reduce_concat]
    refine ⟨_, rfl, ?_⟩
    rw [foldl_concat_width]
    · simp [load_byte]
      ring
    · intro x hx
      obtain ⟨n, _, rfl⟩ := List.mem_map.mp hx
      rfl
  · rfl

/-- C10 witness: one byte loaded from the zero memory at address 0. -/
theorem c10_witness :
    ∃ bv, load_bitvector zeroMem (make_long 0) 1 = some bv ∧ bv.width = 8 * 1 :=
  (c10_load_bitvector_amount zeroMem (make_long 0) 1).1 (by decide)

/-- C6: `get_value` applies the IL sub-typing rule after the operand lookup:
under destination base type Word a 64-bit value is cut to its low 32 bits,
any other width except 32 is `InvalidSubtyping`, and in all remaining cases
(Word with a 32-bit value, Long, or no destination type) the resolved value
passes unchanged. -/
theorem c6_get_value_subtyping (locals ptrs : String → Option BV)
    (dest_ty : Option BaseType) (v : Value) (bv : BV)
    (h : resolve_value locals ptrs v = some (Except.ok bv)) :
    (dest_ty = some BaseType.word → bv.width = 64 →
      get_value locals ptrs dest_ty v = some (Except.ok (bv.extract 31 0)) ∧
      (bv.extract 31 0).width = 32 ∧ (bv.extract 31 0).val = bv.val % 2 ^ 32) ∧
    (dest_ty = some BaseType.word → bv.width ≠ 32 → bv.width ≠ 64 →
      get_value locals ptrs dest_ty v = some (Except.error Error.invalidSubtyping)) ∧
    ((dest_ty = some BaseType.word ∧ bv.width = 32) ∨ dest_ty = some BaseType.long ∨
        dest_ty = none →
      get_value locals ptrs dest_ty v = some (Except.ok bv)) := by
  refine ⟨?_, ?_, ?_⟩
  · rintro rfl h64
    rw [get_value, h]
    refine ⟨?_, ?_, ?_⟩
    · simp [Except.bind, subtype_value, LONG_SIZE, h64]
    · rfl
    · simp [BV.extract]
  · rintro rfl h32 h64
    rw [get_value, h]
    simp [Except.bind, subtype_value, LONG_SIZE, WORD_SIZE, h32, h64]
  · rintro (⟨rfl, h32⟩ | rfl | rfl) <;> rw [get_value, h]
    · simp [Except.bind, subtype_value, LONG_SIZE, WORD_SIZE, h32]
    · simp [Except.bind, subtype_value]
    · simp [Except.bind, subtype_value]

/-- C6 witness: a 64-bit local resolved under Word takes its low 32 bits. -/
theorem c6_witness :
    get_value wLocals wPtrs (some BaseType.word) (Value.localVar "x") =
      some (Except.ok (BV.extract ⟨64, 5⟩ 31 0)) :=
  ((c6_get_value_subtyping wLocals wPtrs (some BaseType.word)
      (Value.localVar "x") ⟨64, 5⟩ rfl).1 rfl rfl).1

/-- C3: the `Jnz` arm of `exec_jump` builds the guard `bv = 0:w32` for the
zero arm and its negation for the non-zero arm, queries the solver on the
zero arm first, answers `CondJump(nz, z)` exactly when both arms are
feasible, `Jump(z)` when only the zero arm is, and `Jump(nz)` when the zero
arm is infeasible — in which case the solver trace contains only the single
zero-arm query. -/
theorem c3_exec_jump_jnz_cases (feas : SBool → Bool) (bv : BV)
    (nzb zb : Block) (_hw : bv.width = 32) :
    ((exec_jump_jnz feas bv nzb zb).1 =
        FuncReturn.condJump ⟨some (SBool.notB (SBool.eqBV bv (make_word 0))), nzb⟩
          ⟨some (SBool.eqBV bv (make_word 0)), zb⟩ ↔
      feas (SBool.eqBV bv (make_word 0)) = true ∧
        feas (SBool.notB (SBool.eqBV bv (make_word 0))) = true) ∧
    (feas (SBool.eqBV bv (make_word 0)) = true →
      feas (SBool.notB (SBool.eqBV bv (make_word 0))) = false →
      (exec_jump_jnz feas bv nzb zb).1 =
        FuncReturn.jump ⟨some (SBool.eqBV bv (make_word 0)), zb⟩) ∧
    (feas (SBool.eqBV bv (make_word 0)) = false →
      (exec_jump_jnz feas bv nzb zb).1 =
        FuncReturn.jump ⟨some (SBool.notB (SBool.eqBV bv (make_word 0))), nzb⟩ ∧
      (exec_jump_jnz feas bv nzb zb).2 = [SBool.eqBV bv (make_word 0)]) := by
  cases hz : feas (SBool.eqBV bv (make_word 0)) <;>
    cases hnz : feas (SBool.notB (SBool.eqBV bv (make_word 0))) <;>
      simp [exec_jump_jnz, path_feasible, hz, hnz]

/-- C3 witness: with a solver that refutes every guard, the zero arm is
infeasible, the non-zero arm is taken, and only one query was made. -/
theorem c3_witness :
    (exec_jump_jnz (fun _ => false) (make_word 0) ⟨"nz"⟩ ⟨"z"⟩).1 =
      FuncReturn.jump
        ⟨some (SBool.notB (SBool.eqBV (make_word 0) (make_word 0))), ⟨"nz"⟩⟩ ∧
    (exec_jump_jnz (fun _ => false) (make_word 0) ⟨"nz"⟩ ⟨"z"⟩).2 =
      [SBool.eqBV (make_word 0) (make_word 0)] :=
  (c3_exec_jump_jnz_cases (fun _ => false) (make_word 0) ⟨"nz"⟩ ⟨"z"⟩
      (by decide)).2.2 rfl

/-- One frame operation leaves the saved stack pointer of the top frame (and
the presence of that frame) unchanged. -/
theorem applyFrameOp_head (st : State) (op : FrameOp) :
    ((applyFrameOp st op).stck.head?).map FuncState.stkptr =
      (st.stck.head?).map FuncState.stkptr := by
  obtain ⟨mem, sp, stk⟩ := st
  cases op with
  | alloc a s => rfl
  | bind n v =>
    cases stk with
    | nil => rfl
    | cons f rest => rfl
  | queryLocal n => rfl
  | queryBlock l => rfl

/-- A sequence of frame operations leaves the saved stack pointer of the top
frame unchanged. -/
theorem foldl_applyFrameOp_head (ops : List FrameOp) (st : State) :
    (((ops.foldl applyFrameOp st).stck.head?).map FuncState.stkptr) =
      (st.stck.head?).map FuncState.stkptr := by
  induction ops generalizing st with
  | nil => rfl
  | cons op ops ih =>
    rw [List.foldl_cons, ih, applyFrameOp_head]

/-- C9: after `push_func`, any sequence of `stack_alloc`, `add_local`,
`get_local` and `get_block` operations followed by `pop_func` restores the
stack pointer to its value immediately before the `push_func`. -/
theorem c9_push_pop_restores_stkptr (st : State) (f : FuncDef) (ops : List FrameOp) :
    (pop_func (ops.foldl applyFrameOp (push_func st f))).stkptr = st.stkptr := by
  have h := foldl_applyFrameOp_head ops (push_func st f)
  unfold pop_func
  cases hc : (ops.foldl applyFrameOp (push_func st f)).stck with
  | nil =>
    rw [hc] at h
    simp [push_func] at h
  | cons fr rest =>
    rw [hc] at h
    simp [push_func] at h
    simpa using h

/-- C7: `stack_alloc` returns `(p - p mod a) + a` in 64-bit wraparound
arithmetic; for a power-of-two alignment the result is congruent to 0 modulo
`a`, it strictly exceeds the old stack pointer when no 64-bit overflow
occurs, and the stack pointer afterwards is the returned address plus the
size. -/
theorem stack_alloc_eq (mem : Memory) (stk : List FuncState) (pv a s : Nat)
    (ha0 : 0 < a) (ha64 : a < 2 ^ 64) (hp : pv < 2 ^ 64) (hs : s < 2 ^ 64) :
    stack_alloc ⟨mem, ⟨64, pv⟩, stk⟩ a s =
      ({ mem := mem,
         stkptr := ⟨64, ((pv - pv % a + a) % 2 ^ 64 + s) % 2 ^ 64⟩,
         stck := stk },
       ⟨64, (pv - pv % a + a) % 2 ^ 64⟩) := by
  have h4 : pv % a < a := Nat.mod_lt pv ha0
  have h5 : pv % a ≤ pv := Nat.mod_le pv a
  have h1 : a % 2 ^ 64 = a := Nat.mod_eq_of_lt ha64
  have h2 : s % 2 ^ 64 = s := Nat.mod_eq_of_lt hs
  have hane : ¬(a = 0) := by omega
  have hrem : (pv % a) % 2 ^ 64 = pv % a := Nat.mod_eq_of_lt (by omega)
  have hsub : (pv + (2 ^ 64 - pv % a)) % 2 ^ 64 = pv - pv % a := by
    have h3 : pv + (2 ^ 64 - pv % a) = pv - pv % a + 2 ^ 64 := by omega
    rw [h3, Nat.add_mod_right, Nat.mod_eq_of_lt (by omega)]
  unfold stack_alloc
  simp only [make_long, mkBV, LONG_SIZE, BV.bvurem, BV.bvsub, BV.bvadd, h1, h2,
    hane, if_false, hrem, hsub]

/-- C7: `stack_alloc` returns `(p - p mod a) + a` in 64-bit wraparound
arithmetic; for a power-of-two alignment the result is congruent to 0 modulo
`a`, it strictly exceeds the old stack pointer when no 64-bit overflow
occurs, and the stack pointer afterwards is the returned address plus the
size. -/
theorem c7_stack_alloc_aligned (st : State) (a s : Nat)
    (ha : ∃ i, a = 2 ^ i) (ha64 : a < 2 ^ 64)
    (hw : st.stkptr.width = 64) (hp : st.stkptr.val < 2 ^ 64)
    (hs : s < 2 ^ 64) (_hstck : st.stck ≠ []) :
    (stack_alloc st a s).2.val =
      (st.stkptr.val - st.stkptr.val % a + a) % 2 ^ 64 ∧
    (stack_alloc st a s).2.width = 64 ∧
    (stack_alloc st a s).2.val % a = 0 ∧
    (st.stkptr.val - st.stkptr.val % a + a < 2 ^ 64 →
      st.stkptr.val < (stack_alloc st a s).2.val) ∧
    (stack_alloc st a s).1.stkptr.val =
      ((stack_alloc st a s).2.val + s) % 2 ^ 64 := by
  obtain ⟨mem, ⟨w, pv⟩, stk⟩ := st
  have hw64 : w = 64 := hw
  subst hw64
  obtain ⟨i, rfl⟩ := ha
  have ha0 : 0 < 2 ^ i := Nat.pos_pow_of_pos i (by omega)
  have hmod : pv % 2 ^ i < 2 ^ i := Nat.mod_lt pv ha0
  have hmodle : pv % 2 ^ i ≤ pv := Nat.mod_le pv (2 ^ i)
  have hi64 : i < 64 := by
    by_contra hcon
    push_neg at hcon
    have hge : (2 : Nat) ^ 64 ≤ 2 ^ i := Nat.pow_le_pow_right (by omega) hcon
    omega
  have hdvd64 : 2 ^ i ∣ 2 ^ 64 := pow_dvd_pow 2 (by omega)
  rw [stack_alloc_eq mem stk pv (2 ^ i) s ha0 ha64 hp hs]
  dsimp only
  refine ⟨rfl, rfl, ?_, ?_, rfl⟩
  · rw [Nat.mod_mod_of_dvd _ hdvd64]
    have hdm : 2 ^ i * (pv / 2 ^ i) + pv % 2 ^ i = pv := Nat.div_add_mod pv (2 ^ i)
    have h3 : pv - pv % 2 ^ i = 2 ^ i * (pv / 2 ^ i) := by omega
    have h6 : 2 ^ i * (pv / 2 ^ i) + 2 ^ i = 2 ^ i * (pv / 2 ^ i + 1) := by ring
    rw [h3, h6]
    exact Nat.mul_mod_right _ _
  · intro hov
    rw [Nat.mod_eq_of_lt hov]
    omega

/-- C7 witness: allocating 8 bytes with alignment 4 from stack pointer 100
returns the 4-aligned address 104 and advances the pointer to 112. -/
theorem c7_witness :
    (stack_alloc wState 4 8).2.val % 4 = 0 ∧
    (stack_alloc wState 4 8).1.stkptr.val =
      ((stack_alloc wState 4 8).2.val + 8) % 2 ^ 64 :=
  ⟨(c7_stack_alloc_aligned wState 4 8 ⟨2, rfl⟩ (by decide) rfl (by decide)
      (by decide) (by decide)).2.2.1,
   (c7_stack_alloc_aligned wState 4 8 ⟨2, rfl⟩ (by decide) rfl (by decide)
      (by decide) (by decide)).2.2.2.2⟩

/-- Adding a positive offset smaller than the modulus changes the residue. -/
theorem add_mod_ne (M x k : Nat) (hk0 : 0 < k) (hkM : k < M) :
    (x + k) % M ≠ x % M := by
  have hM : 0 < M := by omega
  have hr : x % M < M := Nat.mod_lt x hM
  rw [Nat.add_mod, Nat.mod_eq_of_lt hkM]
  rcases Nat.lt_or_ge (x % M + k) M with h2 | h2
  · rw [Nat.mod_eq_of_lt h2]
    omega
  · rw [Nat.mod_eq_sub_mod h2, Nat.mod_eq_of_lt (by omega)]
    omega

/-- Distinct offsets below the modulus give distinct addresses. -/
theorem offsets_mod_ne (M x j n : Nat) (hj : j < M) (hn : n < M) (hne : j ≠ n) :
    (x + j) % M ≠ (x + n) % M := by
  rcases Nat.lt_or_ge j n with h | h
  · have e : x + n = (x + j) + (n - j) := by omega
    rw [e]
    exact (add_mod_ne M (x + j) (n - j) (by omega) (by omega)).symm
  · have e : x + j = (x + n) + (j - n) := by omega
    rw [e]
    exact add_mod_ne M (x + n) (j - n) (by omega) (by omega)

/-- Unfolding of `store_string` on a cons. -/
theorem store_string_cons (m : Memory) (A : BV) (c : Nat) (cs : List Nat) :
    store_string m A (c :: cs) =
      store_string (store_byte m A ⟨8, c⟩) (A.bvadd (mkBV 64 1)) cs := rfl

/-- C8: `store_string` stores the code of `s[i]` at `A + i` for each
`i < len(s)`, leaves every other address untouched (in particular it appends
no NUL byte), and returns the cursor `A + len(s)`. -/
theorem c8_store_string_bytes (m : Memory) (A : BV) (s : List Nat)
    (hA : A.width = 64) (hAv : A.val < 2 ^ 64) (hlen : s.length ≤ 2 ^ 64)
    (hchars : ∀ c ∈ s, c < 256) :
    (∀ i, (hi : i < s.length) →
      (store_string m A s).1 ((A.val + i) % 2 ^ 64) = s.get ⟨i, hi⟩) ∧
    (∀ a, (∀ i, i < s.length → a ≠ (A.val + i) % 2 ^ 64) →
      (store_string m A s).1 a = m a) ∧
    (store_string m A s).2 = ⟨64, (A.val + s.length) % 2 ^ 64⟩ := by
  induction s generalizing m A with
  | nil =>
    refine ⟨?_, ?_, ?_⟩
    · intro i hi
      simp at hi
    · intro a _
      rfl
    · obtain ⟨w, v⟩ := A
      have hw : w = 64 := hA
      subst hw
      have hv : v < 2 ^ 64 := hAv
      simp [store_string]
      omega
  | cons c cs ih =>
    have h1M : (1 : Nat) % 2 ^ 64 = 1 := Nat.mod_eq_of_lt (by norm_num)
    have hA1v : (A.bvadd (mkBV 64 1)).val = (A.val + 1) % 2 ^ 64 := by
      simp [BV.bvadd, mkBV, hA, h1M]
    have hA1w : (A.bvadd (mkBV 64 1)).width = 64 := hA
    have hA1lt : (A.bvadd (mkBV 64 1)).val < 2 ^ 64 := by
      rw [hA1v]
      exact Nat.mod_lt _ (by norm_num)
    have hlen' : cs.length ≤ 2 ^ 64 := by
      simp only [List.length_cons] at hlen
      omega
    have hlenM : cs.length + 1 ≤ 2 ^ 64 := by
      simp only [List.length_cons] at hlen
      omega
    obtain ⟨ih1, ih2, ih3⟩ :=
      ih (store_byte m A ⟨8, c⟩) (A.bvadd (mkBV 64 1)) hA1w hA1lt hlen'
        (fun x hx => hchars x (List.mem_cons_of_mem c hx))
    have hshift : ∀ i : Nat, ((A.bvadd (mkBV 64 1)).val + i) % 2 ^ 64 =
        (A.val + (i + 1)) % 2 ^ 64 := by
      intro i
      rw [hA1v, Nat.mod_add_mod]
      congr 1
      omega
    rw [store_string_cons]
    refine ⟨?_, ?_, ?_⟩
    · intro i hi
      match i with
      | 0 =>
        have hA0 : (A.val + 0) % 2 ^ 64 = A.val := by
          rw [Nat.add_zero, Nat.mod_eq_of_lt hAv]
        rw [hA0]
        have huntouched : ∀ j, j < cs.length →
            A.val ≠ ((A.bvadd (mkBV 64 1)).val + j) % 2 ^ 64 := by
          intro j hj
          rw [hshift j]
          intro hcontra
          have : (A.val + (j + 1)) % 2 ^ 64 = A.val % 2 ^ 64 := by
            rw [← hcontra, Nat.mod_eq_of_lt hAv]
          exact add_mod_ne (2 ^ 64) A.val (j + 1) (by omega) (by omega) this
        rw [ih2 A.val huntouched]
        simp [store_byte]
      | Nat.succ i =>
        have hi' : i < cs.length := by
          simp only [List.length_cons] at hi
          omega
        have hg : (c :: cs).get ⟨i + 1, hi⟩ = cs.get ⟨i, hi'⟩ := rfl
        rw [hg, ← hshift i]
        exact ih1 i hi'
    · intro a ha
      have ha' : ∀ i, i < cs.length → a ≠ ((A.bvadd (mkBV 64 1)).val + i) % 2 ^ 64 := by
        intro i hi
        rw [hshift i]
        exact ha (i + 1) (by simp only [List.length_cons]; omega)
      rw [ih2 a ha']
      have ha0 : a ≠ A.val := by
        have := ha 0 (by simp only [List.length_cons]; omega)
        rwa [Nat.add_zero, Nat.mod_eq_of_lt hAv] at this
      simp [store_byte, ha0]
    · rw [ih3, hA1v]
      simp only [List.length_cons]
      congr 1
      rw [Nat.mod_add_mod]
      congr 1
      omega

/-- C8 witness: storing "Hi" (codes 72, 105) at address 0 in the zero memory
places 72 at address 0 and returns the cursor 2. -/
theorem c8_witness :
    (store_string zeroMem (make_long 0) [72, 105]).1
        (((make_long 0).val + 0) % 2 ^ 64) = 72 ∧
    (store_string zeroMem (make_long 0) [72, 105]).2 =
      ⟨64, ((make_long 0).val + 2) % 2 ^ 64⟩ :=
  ⟨(c8_store_string_bytes zeroMem (make_long 0) [72, 105] rfl (by decide)
      (by decide) (by decide)).1 0 (by decide),
   (c8_store_string_bytes zeroMem (make_long 0) [72, 105] rfl (by decide)
      (by decide) (by decide)).2.2⟩

/-- Unfolding of one iteration of the `store_bitvector` loop. -/
theorem store_iter_succ (m : Memory) (addr V : BV) (k n : Nat) :
    store_iter m addr V k (n + 1) =
      store_byte (store_iter m addr V k n) (addr.bvadd (mkBV 64 n))
        (V.extract ((k - n) * 8 - 1) ((k - n - 1) * 8)) := by
  unfold store_iter
  rw [List.range_succ, List.foldl_append]
  rfl

/-- After `n ≤ k` iterations of the store loop, the byte at offset `j < n`
is the `(k-1-j)`-th base-256 digit of the stored value (big-endian). -/
theorem store_iter_at (m : Memory) (addr V : BV) (k : Nat)
    (hA : addr.width = 64) (hk : k ≤ 2 ^ 64) :
    ∀ n, n ≤ k → ∀ j, j < n →
      store_iter m addr V k n ((addr.val + j) % 2 ^ 64) =
        V.val / 2 ^ ((k - 1 - j) * 8) % 2 ^ 8 := by
  intro n
  induction n with
  | zero =>
    intro _ j hj
    omega
  | succ n ihn =>
    intro hn j hj
    rw [store_iter_succ]
    have hn64 : n < 2 ^ 64 := by omega
    have haddr : (addr.bvadd (mkBV 64 n)).val = (addr.val + n) % 2 ^ 64 := by
      simp [BV.bvadd, mkBV, hA, Nat.mod_eq_of_lt hn64]
    by_cases hjn : j = n
    · subst hjn
      simp only [store_byte, haddr, if_pos rfl]
      simp only [BV.extract]
      have he1 : (k - j) * 8 - 1 + 1 - (k - j - 1) * 8 = 8 := by omega
      have he2 : k - 1 - j = k - j - 1 := by omega
      rw [he1, he2]
      simp
    · have hne : (addr.val + j) % 2 ^ 64 ≠ (addr.val + n) % 2 ^ 64 :=
        offsets_mod_ne (2 ^ 64) addr.val j n (by omega) (by omega) hjn
      simp only [store_byte, haddr, if_neg hne]
      exact ihn (by omega) j (by omega)

/-- Embeds `reduce` over a list extended on the right. -/
theorem reduce_concat_snoc (l : List BV) (x : BV) :
    reduce_concat (l ++ [x]) =
      match reduce_concat l with
      | none => some x
      | some b => some (b.concat x) := by
  cases l with
  | nil => rfl
  | cons b bs => simp [reduce_concat, List.foldl_append, BV.concat]

/-- Concatenating the big-endian base-256 digits `k-1, ..., k-t` of a value
below `2^(8k)` reconstructs the value shifted right by `(k-t)` bytes. -/
theorem reduce_concat_digits (v k : Nat) (hv : v < 2 ^ (8 * k)) :
    ∀ t, 1 ≤ t → t ≤ k →
      reduce_concat ((List.range t).map
          (fun n => (⟨8, v / 2 ^ ((k - 1 - n) * 8) % 2 ^ 8⟩ : BV))) =
        some ⟨8 * t, v / 2 ^ ((k - t) * 8)⟩ := by
  intro t
  induction t with
  | zero =>
    intro h
    omega
  | succ t iht =>
    intro _ ht
    by_cases ht0 : t = 0
    · subst ht0
      have hr1 : List.range (0 + 1) = [0] := rfl
      rw [hr1]
      simp only [List.map_cons, List.map_nil, reduce_concat, List.foldl_nil,
        Nat.sub_zero]
      have hpow : (2 : Nat) ^ ((k - 1) * 8) * 2 ^ 8 = 2 ^ (8 * k) := by
        rw [← pow_add]
        congr 1
        omega
      have hd : v / 2 ^ ((k - 1) * 8) < 2 ^ 8 := by
        apply Nat.div_lt_of_lt_mul
        omega
      rw [Nat.mod_eq_of_lt hd]
    · have ht1 : 1 ≤ t := by omega
      have htk : t ≤ k := by omega
      rw [List.range_succ, List.map_append]
      simp only [List.map_cons, List.map_nil]
      rw [reduce_concat_snoc, iht ht1 htk]
      simp only [BV.concat, Option.some.injEq, BV.mk.injEq]
      refine ⟨by omega, ?_⟩
      have he : (k - t) * 8 = (k - 1 - t) * 8 + 8 := by omega
      have hdd : v / 2 ^ ((k - t) * 8) = v / 2 ^ ((k - 1 - t) * 8) / 2 ^ 8 := by
        rw [he, pow_add, ← Nat.div_div_eq_div_mul]
      have hy := Nat.div_add_mod (v / 2 ^ ((k - 1 - t) * 8)) (2 ^ 8)
      have hkk : k - (t + 1) = k - 1 - t := by omega
      rw [hkk, hdd]
      omega

/-- C2: `store_bitvector` lays a value of width `8·k` out big-endian — the
byte at `A + (k-i)` is bits `[(i·8-1)..((i-1)·8)]` of `V` — the single-byte
loads at `A, ..., A+k-1` return the bytes most-significant first, and
`load_bitvector`/`load_word` reassemble exactly the stored value. -/
theorem c2_store_load_bigendian (m : Memory) (A V : BV) (k : Nat)
    (hw : V.width = 8 * k) (hk1 : 1 ≤ k) (hk : k ≤ 2 ^ 64)
    (hA : A.width = 64) (hV : V.wf) :
    (∀ i, 1 ≤ i → i ≤ k →
      store_bitvector m A V ((A.val + (k - i)) % 2 ^ 64) =
        V.val / 2 ^ ((i - 1) * 8) % 2 ^ 8) ∧
    (∀ j, j < k →
      load_byte (store_bitvector m A V) (A.bvadd (mkBV 64 j)) =
        ⟨8, V.val / 2 ^ ((k - 1 - j) * 8) % 2 ^ 8⟩) ∧
    load_bitvector (store_bitvector m A V) A k = some V ∧
    (k = 4 → load_word (store_bitvector m A V) A = some V) := by
  have hamount : V.width / 8 = k := by
    rw [hw]
    omega
  have hsb : store_bitvector m A V = store_iter m A V k k := by
    unfold store_bitvector store_iter
    rw [hamount]
  have hVlt : V.val < 2 ^ (8 * k) := by
    have := hV
    rw [BV.wf, hw] at this
    exact this
  have hbyte : ∀ j, j < k →
      load_byte (store_bitvector m A V) (A.bvadd (mkBV 64 j)) =
        ⟨8, V.val / 2 ^ ((k - 1 - j) * 8) % 2 ^ 8⟩ := by
    intro j hj
    have hj64 : j < 2 ^ 64 := by omega
    have haddr : (A.bvadd (mkBV 64 j)).val = (A.val + j) % 2 ^ 64 := by
      simp [BV.bvadd, mkBV, hA, Nat.mod_eq_of_lt hj64]
    rw [load_byte, haddr, hsb,
      store_iter_at m A V k hA hk k (le_refl k) j hj]
  have h3 : load_bitvector (store_bitvector m A V) A k = some V := by
    rw [load_bitvector]
    have hmapeq : (List.range k).map
        (fun n => load_byte (store_bitvector m A V) (A.bvadd (mkBV 64 n))) =
        (List.range k).map
          (fun n => (⟨8, V.val / 2 ^ ((k - 1 - n) * 8) % 2 ^ 8⟩ : BV)) := by
      apply List.map_congr_left
      intro n hn
      exact hbyte n (List.mem_range.mp hn)
    rw [hmapeq, reduce_concat_digits V.val k hVlt k hk1 (le_refl k)]
    have hzero : (k - k) * 8 = 0 := by omega
    rw [hzero, pow_zero, Nat.div_one]
    have hVeq : V = (⟨8 * k, V.val⟩ : BV) := by
      rw [← hw]
    rw [← hVeq]
  refine ⟨?_, hbyte, h3, ?_⟩
  · intro i h1 hik
    have hji : k - i < k := by omega
    have := store_iter_at m A V k hA hk k (le_refl k) (k - i) hji
    rw [hsb, this]
    have : k - 1 - (k - i) = i - 1 := by omega
    rw [this]
  · intro hk4
    rw [load_word]
    subst hk4
    exact h3

/-- C2 witness: the word `0xdeadbeef` stored at address 0x1000 in the zero
memory is reassembled exactly by `load_bitvector` with 4 bytes. -/
theorem c2_witness :
    load_bitvector
        (store_bitvector zeroMem (make_long 4096) ⟨32, 0xdeadbeef⟩)
        (make_long 4096) 4 = some ⟨32, 0xdeadbeef⟩ :=
  (c2_store_load_bigendian zeroMem (make_long 4096) ⟨32, 0xdeadbeef⟩ 4
      rfl (by decide) (by decide) rfl (by decide)).2.2.1

end Qsym
